import Mathlib

/-!
Shallow embedding of the subtitle-cue synthesis pipeline and the carousel
aggregation state machine of the instagram-clone repository.

Conventions of the embedding:
* Python floats carrying time offsets are modelled as rationals (`ℚ`),
  i.e. the real-number semantics of the float literals in the source
  (`0.05` becomes `1/20`, `0.1` becomes `1/10`, and so on).
* Python `str` values are Lean `String`s; where character-level reasoning
  is needed the character list `String.data` is used, which matches
  Python's code-point view of a string.
* Python dictionaries are association lists with first-match lookup.
-/

/-! ### subtitle_service.py, `_estimate_syllables` (lines 176-193) -/

/-- The vowel set of `_estimate_syllables`: `vowels = 'aeiouáéíóú'`. -/
def vowels : List Char := ['a', 'e', 'i', 'o', 'u', 'á', 'é', 'í', 'ó', 'ú']

/-- Python `str.lower` restricted to the characters that can affect
membership in `vowels`: ASCII letters and the accented uppercase vowels.
Other characters are untouched (their lowercase form is never a vowel of
the set above, so this agrees with the source on every decision made). -/
def pyLower (c : Char) : Char :=
  if c = 'Á' then 'á'
  else if c = 'É' then 'é'
  else if c = 'Í' then 'í'
  else if c = 'Ó' then 'ó'
  else if c = 'Ú' then 'ú'
  else c.toLower

/-- `is_vowel = char in vowels` from the source loop. -/
def isVowel (c : Char) : Bool := vowels.contains c

/-- The character loop of `_estimate_syllables`: walk the characters with a
`previous_was_vowel` flag, adding 1 whenever a vowel follows a non-vowel. -/
def syllable_loop : List Char → Bool → ℕ
  | [], _ => 0
  | c :: rest, prev =>
    (if isVowel c && !prev then 1 else 0) + syllable_loop rest (isVowel c)

/-- `_estimate_syllables(word)`: lowercase the word, count vowel-run starts,
return at least 1. -/
def estimate_syllables (word : String) : ℕ :=
  max 1 (syllable_loop (word.data.map pyLower) false)

/-- Spec-side syllable definition, written from the spec's words for the
refinement claim: "count of positions where a vowel follows a non-vowel"
in the lowercased word (position 0 counting as following a non-vowel),
with a minimum of 1. -/
def spec_syllables (word : String) : ℕ :=
  let v := (word.data.map pyLower).map isVowel
  max 1 (((false :: v).zip v).countP fun p => !p.1 && p.2)

/-! ### subtitle_service.py, chunk planner of `_create_smooth_bookoly_srt` -/

/-- One Whisper transcript segment: `{start, end, text}`. -/
structure Segment where
  start : ℚ
  endTime : ℚ
  text : String
deriving DecidableEq, Repr

/-- One emitted subtitle cue, the data of one 4-line SRT block. -/
structure Cue where
  index : ℕ
  start : ℚ
  endTime : ℚ
  text : String
deriving DecidableEq, Repr

/-- `total_syllables = sum(self._estimate_syllables(word) for word in words)`. -/
def totalSyllables (ws : List String) : ℕ :=
  (ws.map estimate_syllables).sum

/-- `time_per_syllable = segment_duration / total_syllables if total_syllables > 0 else 0`. -/
def timePerSyllable (dur : ℚ) (total : ℕ) : ℚ :=
  if 0 < total then dur / total else 0

/-- `chunk_duration = chunk_syllables * time_per_syllable`. -/
def chunkDuration (chunk : List String) (tps : ℚ) : ℚ :=
  (totalSyllables chunk : ℚ) * tps

/-- Python `str.upper` restricted, as `pyLower`, to the characters the
pipeline can meet: ASCII letters and the accented lowercase vowels. -/
def pyUpper (c : Char) : Char :=
  if c = 'á' then 'Á'
  else if c = 'é' then 'É'
  else if c = 'í' then 'Í'
  else if c = 'ó' then 'Ó'
  else if c = 'ú' then 'Ú'
  else c.toUpper

/-- `str.upper` on a whole string, character by character. -/
def upperStr (s : String) : String :=
  String.mk (s.data.map pyUpper)

/-- Helper for Python `str.split()`: one pass over the characters with the
current word accumulated in reverse; whitespace runs separate words and
produce no empty parts. -/
def splitRuns : List Char → List Char → List String
  | [], acc => if acc = [] then [] else [String.mk acc.reverse]
  | c :: rest, acc =>
    if c.isWhitespace then
      if acc = [] then splitRuns rest []
      else String.mk acc.reverse :: splitRuns rest []
    else splitRuns rest (c :: acc)

/-- Python `str.split()` with no argument (as in `text.strip().split()`;
the `strip` is absorbed, leading and trailing whitespace produce nothing). -/
def pySplit (s : String) : List String := splitRuns s.data []

/-- `words = text.split()` for one segment. -/
def segmentWords (seg : Segment) : List String := pySplit seg.text

/-- The `while i < len(words)` loop of `_create_smooth_bookoly_srt`
(lines 129-168), producing the cue data of each appended SRT block.
The three match arms realise the chunk-size decision: a word longer than
7 characters, or a final word, forms a 1-word chunk; otherwise the word is
grouped with its successor (`chunk_size = 2`, already capped by the number
of remaining words). -/
def emitChunks (startTime endTime tps : ℚ) : ℚ → List String → ℕ → List Cue
  | _, [], _ => []
  | current, [w], idx =>
    let chunkEnd := min (current + chunkDuration [w] tps) endTime
    [⟨idx, max startTime (current - 1/20), chunkEnd,
      upperStr (String.intercalate " " [w])⟩]
  | current, w :: w2 :: rest, idx =>
    if w.length > 7 then
      let chunkEnd := min (current + chunkDuration [w] tps) endTime
      ⟨idx, max startTime (current - 1/20), chunkEnd,
        upperStr (String.intercalate " " [w])⟩ ::
      emitChunks startTime endTime tps chunkEnd (w2 :: rest) (idx + 1)
    else
      let chunkEnd := min (current + chunkDuration [w, w2] tps) endTime
      ⟨idx, max startTime (current - 1/20), chunkEnd,
        upperStr (String.intercalate " " [w, w2])⟩ ::
      emitChunks startTime endTime tps chunkEnd rest (idx + 1)

/-- The `for segment in segments` loop of `_create_smooth_bookoly_srt`
(lines 106-168): segments whose text has no words are skipped, the others
are chunked with the syllable-weighted timing, threading the running
`subtitle_index`. -/
def processSegments : List Segment → ℕ → List Cue
  | [], _ => []
  | seg :: rest, idx =>
    let words := segmentWords seg
    if words = [] then processSegments rest idx
    else
      let dur := seg.endTime - seg.start
      let tps := timePerSyllable dur (totalSyllables words)
      let cues := emitChunks seg.start seg.endTime tps seg.start words idx
      cues ++ processSegments rest (idx + cues.length)

/-! ### subtitle_service.py, `_format_srt_time` (lines 195-201) -/

/-- Python float modulo with a positive divisor: `a - b * floor(a / b)`. -/
def fmod (a b : ℚ) : ℚ := a - b * ⌊a / b⌋

/-- `hours = int(seconds // 3600)`. -/
def srtHours (s : ℚ) : ℤ := ⌊s / 3600⌋

/-- `minutes = int((seconds % 3600) // 60)`. -/
def srtMinutes (s : ℚ) : ℕ := (⌊fmod s 3600 / 60⌋).toNat

/-- `secs = int(seconds % 60)` (truncation of a value in `[0, 60)`). -/
def srtSecs (s : ℚ) : ℕ := (⌊fmod s 60⌋).toNat

/-- `millis = int((seconds % 1) * 1000)` (truncation of a value in `[0, 1000)`). -/
def srtMillis (s : ℚ) : ℕ := (⌊fmod s 1 * 1000⌋).toNat

/-- Python's `{:0Nd}` on a non-negative integer: left-pad with zeros. -/
def padNat (width n : ℕ) : String :=
  String.mk (List.replicate (width - (Nat.repr n).length) '0') ++ Nat.repr n

/-- Python's `{:0Nd}` on a possibly negative integer (the sign occupies one
of the padded columns, as in Python). -/
def padInt (width : ℕ) (i : ℤ) : String :=
  if i < 0 then "-" ++ padNat (width - 1) i.natAbs else padNat width i.toNat

/-- `_format_srt_time(seconds)`: `HH:MM:SS,mmm`. -/
def format_srt_time (s : ℚ) : String :=
  padInt 2 (srtHours s) ++ ":" ++ padNat 2 (srtMinutes s) ++ ":" ++
    padNat 2 (srtSecs s) ++ "," ++ padNat 3 (srtMillis s)

/-- The four lines appended per chunk (lines 161-164): index line,
timestamp line, uppercased text, blank separator. -/
def cueLines (c : Cue) : List String :=
  [Nat.repr c.index,
   format_srt_time c.start ++ " --> " ++ format_srt_time c.endTime,
   c.text,
   ""]

/-- `_create_smooth_bookoly_srt`: all lines of all segments joined by
newlines (`'\n'.join(srt_lines)`), with `subtitle_index` starting at 1. -/
def create_smooth_bookoly_srt (segments : List Segment) : String :=
  String.intercalate "\n" ((processSegments segments 1).flatMap cueLines)

/-! ### config.py constants (lines 39-56) -/

def CAPTION_MAX_LENGTH : ℕ := 2200

def CAROUSEL_WAIT_TIMEOUT : ℕ := 30

def MAX_CAROUSEL_ITEMS : ℕ := 10

def SUBTITLE_FONT : String := "Arial"

def SUBTITLE_FONT_SIZE : ℕ := 16

def SUBTITLE_COLOR : String := "white"

def SUBTITLE_POSITION : String := "bottom"

def SUBTITLE_MAX_WORDS_PER_LINE : ℕ := 2

/-! ### content_processor.py, caption truncation (lines 84-86, 155-156, 238-239)

The same three lines appear at each publish site:
`if len(c) > CAPTION_MAX_LENGTH: c = c[:CAPTION_MAX_LENGTH-3] + "..."`.
Captions are modelled as their character lists. -/

def truncate_caption (caption : List Char) : List Char :=
  if CAPTION_MAX_LENGTH < caption.length then
    caption.take (CAPTION_MAX_LENGTH - 3) ++ ['.', '.', '.']
  else caption

/-! ### uploadpost_service.py, `extract_frames_from_video` (lines 54-62)

Only the timestamp computation carries logic; the ffprobe/ffmpeg calls
around it are external processes. -/

def frame_timestamps (duration : ℚ) (num_frames : ℕ) : List ℚ :=
  if num_frames = 1 then [duration / 2]
  else
    let start := max 1 (duration * (1/10))
    let stop := min (duration - 1) (duration * (9/10))
    let stop := if stop ≤ start then start + 1 else stop
    let interval := if 1 < num_frames then (stop - start) / ((num_frames : ℚ) - 1) else 0
    (List.range num_frames).map fun i : ℕ => start + (i : ℚ) * interval

/-! ### subtitle_service.py, `add_subtitles_to_video` (lines 239-264)

The subtitle style is a fixed literal; the configuration record below
carries the five `SUBTITLE_*` values the module imports (lines 11-18),
so that their (non-)influence on the constructed command is statable. -/

structure SubtitleConfig where
  subtitle_font : String
  subtitle_font_size : ℕ
  subtitle_color : String
  subtitle_position : String
  subtitle_max_words_per_line : ℕ
deriving DecidableEq, Repr

/-- The values of config.py lines 52-56. -/
def defaultSubtitleConfig : SubtitleConfig :=
  ⟨SUBTITLE_FONT, SUBTITLE_FONT_SIZE, SUBTITLE_COLOR, SUBTITLE_POSITION,
    SUBTITLE_MAX_WORDS_PER_LINE⟩

/-- The `subtitle_style` literal of lines 241-252. -/
def subtitle_style : String :=
  "FontName=Arial Black," ++
  "FontSize=14," ++
  "Bold=1," ++
  "PrimaryColour=&H0000FFFF," ++
  "OutlineColour=&H00000000," ++
  "BorderStyle=1," ++
  "Outline=1," ++
  "Shadow=0," ++
  "Alignment=2," ++
  "MarginV=60"

/-- ASCII single quote, written by code point to keep the source plain. -/
def quoteStr : String := String.singleton (Char.ofNat 39)

/-- The `ffmpeg_cmd` list of lines 257-264.  The configuration record is in
scope exactly as the imported module constants are in the source; the body
is the literal command construction. -/
def ffmpeg_subtitle_cmd (_cfg : SubtitleConfig) (video_path srt_path output_path : String) :
    List String :=
  ["/usr/bin/ffmpeg", "-i", video_path,
   "-vf", "subtitles=" ++ srt_path ++ ":force_style=" ++ quoteStr ++ subtitle_style ++ quoteStr,
   "-c:a", "copy",
   "-preset", "fast",
   output_path,
   "-y"]

/-! ### content_processor.py, carousel aggregation (lines 42-44, 102-175)

The aggregator is a state machine over the two dictionaries
`carousel_groups` and `carousel_captions`, modelled as association lists
with first-match lookup (Python dict semantics on these keys).  Items are
opaque (`ℕ` stands for the downloaded photo bytes).

The timer continuation is **not atomic** in the source: after the
`asyncio.sleep`, `process_carousel_item` checks the buffered count and
calls `publish_carousel`, which checks membership and takes a *reference*
to the group's item list (line 136) — all synchronously — and then
suspends on awaited external calls (caption translation, upload) before
deleting the registry entries at lines 169-171.  Other tasks (further
arrivals, other expiries, other completions) run during those awaits.
The model therefore splits the continuation into two events:

* `fire`: the synchronous prefix — count check, membership check, capture
  of the list reference — which registers an in-flight publish in
  `pending`;
* `complete`: the resumption after the awaited upload — the publish is
  recorded with the list's *current* contents (the captured reference sees
  appends made while suspended), then the `del` runs, raising `KeyError`
  (after the upload!) when a competing completion already removed the
  binding.

Python list objects are given identities: `store` maps an object id to
its current contents, `carousel_groups` maps a group id to an object id,
and `next_id` is the allocator.  Appends mutate the store entry, so a
pending publish holding an object id observes them — as the Python
reference does.  List objects are never destroyed (`pending` may outlive
the dict binding).  A publish that reaches the external uploader is
recorded in `published`; the uploads themselves are out of scope and are
taken to succeed.  The awaited photo download inside the pre-sleep half
(lines 116-117) is not a suspension point any claim exercises, so an
arrival stays one event. -/

def alookup {κ α : Type} [DecidableEq κ] (k : κ) : List (κ × α) → Option α
  | [] => none
  | (k', v) :: rest => if k' = k then some v else alookup k rest

/-- Python dict assignment `d[k] = v`: overwrite the binding if present,
otherwise append a new one. -/
def aset {κ α : Type} [DecidableEq κ] (k : κ) (v : α) :
    List (κ × α) → List (κ × α)
  | [] => [(k, v)]
  | (k', v') :: rest => if k' = k then (k, v) :: rest else (k', v') :: aset k v rest

/-- Python `del d[k]` (callers check presence; on an absent key the source
raises `KeyError`, which the call sites below handle as described). -/
def aerase {κ α : Type} [DecidableEq κ] (k : κ) :
    List (κ × α) → List (κ × α)
  | [] => []
  | (k', v') :: rest => if k' = k then rest else (k', v') :: aerase k rest

/-- Remove the first occurrence of a pending-publish entry (task
completion consumes exactly its own registration). -/
def perase (p : String × ℕ) : List (String × ℕ) → List (String × ℕ)
  | [] => []
  | q :: rest => if q = p then rest else q :: perase p rest

structure ProcState where
  next_id : ℕ
  store : List (ℕ × List ℕ)
  carousel_groups : List (String × ℕ)
  carousel_captions : List (String × String)
  pending : List (String × ℕ)
  published : List (String × List ℕ)
deriving DecidableEq, Repr

/-- The pre-sleep half of `process_carousel_item` (lines 104-122): create
the group on first contact (allocating a fresh list object and capturing
the caption of that first message), then append the downloaded item to
the group's list object. -/
def carousel_arrive (gid caption : String) (item : ℕ) (s : ProcState) : ProcState :=
  let s1 :=
    if (alookup gid s.carousel_groups).isNone then
      { s with next_id := s.next_id + 1
               store := aset s.next_id [] s.store
               carousel_groups := aset gid s.next_id s.carousel_groups
               carousel_captions := aset gid caption s.carousel_captions }
    else s
  match alookup gid s1.carousel_groups with
  | some oid =>
    { s1 with store := aset oid ((alookup oid s1.store).getD [] ++ [item]) s1.store }
  | none => s1

/-- Expiry of one arrival's quiet-period sleep, up to the first await:
the count check of line 128 (`KeyError` when the group is gone, caught by
`process_message`: no state change), then — when the count is within the
limit — the synchronous entry of `publish_carousel` (membership check,
capture of `images = self.carousel_groups[gid]` at line 136), leaving an
in-flight publish suspended on the awaited translation/upload. -/
def carousel_fire (gid : String) (s : ProcState) : ProcState :=
  match alookup gid s.carousel_groups with
  | none => s
  | some oid =>
    if ((alookup oid s.store).getD []).length ≤ MAX_CAROUSEL_ITEMS then
      { s with pending := s.pending ++ [(gid, oid)] }
    else s

/-- Resumption of one in-flight publish after its awaited upload
(lines 164-171): the upload carries the captured list's *current*
contents; then `del self.carousel_groups[gid]` removes whatever binding
exists now and the guarded caption delete follows — or raises `KeyError`
(after the upload already happened) when a competing completion removed
the binding first, leaving the registries as they are. -/
def carousel_complete (gid : String) (oid : ℕ) (s : ProcState) : ProcState :=
  if (gid, oid) ∈ s.pending then
    let s1 := { s with pending := perase (gid, oid) s.pending
                       published := s.published ++ [(gid, (alookup oid s.store).getD [])] }
    match alookup gid s1.carousel_groups with
    | some _ =>
      { s1 with carousel_groups := aerase gid s1.carousel_groups
                carousel_captions := aerase gid s1.carousel_captions }
    | none => s1
  else s

inductive AggEvent : Type
  | arrive (gid caption : String) (item : ℕ)
  | fire (gid : String)
  | complete (gid : String) (oid : ℕ)
deriving DecidableEq, Repr

def stepEvent (s : ProcState) : AggEvent → ProcState
  | .arrive gid caption item => carousel_arrive gid caption item s
  | .fire gid => carousel_fire gid s
  | .complete gid oid => carousel_complete gid oid s

def runEvents (s : ProcState) (es : List AggEvent) : ProcState :=
  es.foldl stepEvent s

/-- A burst of `N` arrivals to one group within the quiet period of the
first, under the *serialized* schedule: the first expiry's continuation
runs to completion (fire, then complete) before the remaining `N - 1`
sleeps expire; those late expiries then find the group unregistered. -/
def serializedCarouselTrace (gid caption : String) (items : List ℕ) (oid : ℕ) :
    List AggEvent :=
  items.map (AggEvent.arrive gid caption) ++
    [AggEvent.fire gid, AggEvent.complete gid oid] ++
    List.replicate (items.length - 1) (AggEvent.fire gid)

/-! ## Theorems -/

theorem syllable_loop_eq_countP (l : List Char) (prev : Bool) :
    syllable_loop l prev =
      (((prev :: l.map isVowel).zip (l.map isVowel)).countP
        fun p => !p.1 && p.2) := by
  induction l generalizing prev with
  | nil => simp [syllable_loop]
  | cons c rest ih =>
    simp only [syllable_loop, List.map_cons, List.zip_cons_cons,
      List.countP_cons, ih (isVowel c)]
    cases isVowel c <;> cases prev <;> simp [Nat.add_comm]

/-! ### Invariants of the chunk emitter -/

theorem chunkDuration_nonneg (chunk : List String) (tps : ℚ) (htps : 0 ≤ tps) :
    0 ≤ chunkDuration chunk tps :=
  mul_nonneg (Nat.cast_nonneg _) htps

theorem timePerSyllable_nonneg (dur : ℚ) (total : ℕ) (h : 0 ≤ dur) :
    0 ≤ timePerSyllable dur total := by
  unfold timePerSyllable
  split
  · positivity
  · exact le_refl 0

/-- Per-cue bounds of the inner loop: starting from
`startTime ≤ current ≤ endTime` with a non-negative per-syllable rate,
every produced cue starts no earlier than `max startTime (current - 0.05)`
(hence no earlier than the segment start), starts no later than it ends,
and ends by `endTime`. -/
theorem emitChunks_bounds (st en tps : ℚ) (htps : 0 ≤ tps)
    (cur : ℚ) (ws : List String) (idx : ℕ) :
    st ≤ cur → cur ≤ en →
    ∀ c ∈ emitChunks st en tps cur ws idx,
      (st ≤ c.start ∧ max st (cur - 1/20) ≤ c.start) ∧
      c.start ≤ c.endTime ∧ c.endTime ≤ en := by
  induction cur, ws, idx using emitChunks.induct st en tps with
  | case1 cur idx =>
    intro _ _ c hc
    simp [emitChunks] at hc
  | case2 cur w idx =>
    intro h1 h2 c hc
    have hd : 0 ≤ chunkDuration [w] tps := chunkDuration_nonneg _ _ htps
    simp only [emitChunks, List.mem_singleton] at hc
    subst hc
    refine ⟨⟨le_max_left _ _, le_refl _⟩, ?_, min_le_right _ _⟩
    exact max_le (le_min (by linarith) (by linarith))
      (le_min (by linarith) (by linarith))
  | case3 cur w w2 rest idx hlen ce ih =>
    intro h1 h2 c hc
    have hd : 0 ≤ chunkDuration [w] tps := chunkDuration_nonneg _ _ htps
    rw [emitChunks, if_pos hlen] at hc
    rcases List.mem_cons.mp hc with hc | hc
    · subst hc
      refine ⟨⟨le_max_left _ _, le_refl _⟩, ?_, min_le_right _ _⟩
      exact max_le (le_min (by linarith) (by linarith))
        (le_min (by linarith) (by linarith))
    · have hce1 : st ≤ min (cur + chunkDuration [w] tps) en :=
        le_min (by linarith) (by linarith)
      have hce2 : min (cur + chunkDuration [w] tps) en ≤ en := min_le_right _ _
      obtain ⟨⟨hb1, hb2⟩, hb3, hb4⟩ := ih hce1 hce2 c hc
      refine ⟨⟨hb1, ?_⟩, hb3, hb4⟩
      refine le_trans (max_le_max (le_refl st) ?_) hb2
      have : cur ≤ min (cur + chunkDuration [w] tps) en :=
        le_min (by linarith) h2
      linarith
  | case4 cur w w2 rest idx hlen ce ih =>
    intro h1 h2 c hc
    have hd : 0 ≤ chunkDuration [w, w2] tps := chunkDuration_nonneg _ _ htps
    rw [emitChunks, if_neg hlen] at hc
    rcases List.mem_cons.mp hc with hc | hc
    · subst hc
      refine ⟨⟨le_max_left _ _, le_refl _⟩, ?_, min_le_right _ _⟩
      exact max_le (le_min (by linarith) (by linarith))
        (le_min (by linarith) (by linarith))
    · have hce1 : st ≤ min (cur + chunkDuration [w, w2] tps) en :=
        le_min (by linarith) (by linarith)
      have hce2 : min (cur + chunkDuration [w, w2] tps) en ≤ en := min_le_right _ _
      obtain ⟨⟨hb1, hb2⟩, hb3, hb4⟩ := ih hce1 hce2 c hc
      refine ⟨⟨hb1, ?_⟩, hb3, hb4⟩
      refine le_trans (max_le_max (le_refl st) ?_) hb2
      have : cur ≤ min (cur + chunkDuration [w, w2] tps) en :=
        le_min (by linarith) h2
      linarith

/-- The cue starts of the inner loop are non-decreasing. -/
theorem emitChunks_chain (st en tps : ℚ) (htps : 0 ≤ tps)
    (cur : ℚ) (ws : List String) (idx : ℕ) :
    st ≤ cur → cur ≤ en →
    List.Chain' (fun a b : Cue => a.start ≤ b.start)
      (emitChunks st en tps cur ws idx) := by
  induction cur, ws, idx using emitChunks.induct st en tps with
  | case1 cur idx => intro _ _; simp [emitChunks]
  | case2 cur w idx => intro _ _; simp [emitChunks]
  | case3 cur w w2 rest idx hlen ce ih =>
    intro h1 h2
    have hd : 0 ≤ chunkDuration [w] tps := chunkDuration_nonneg _ _ htps
    have hce1 : st ≤ min (cur + chunkDuration [w] tps) en :=
      le_min (by linarith) (by linarith)
    have hce2 : min (cur + chunkDuration [w] tps) en ≤ en := min_le_right _ _
    rw [emitChunks, if_pos hlen]
    refine List.Chain'.cons' (ih hce1 hce2) ?_
    intro y hy
    have hmem := List.mem_of_mem_head? hy
    obtain ⟨⟨_, hb2⟩, _, _⟩ := emitChunks_bounds st en tps htps _ _ _ hce1 hce2 y hmem
    refine le_trans (max_le_max (le_refl st) ?_) hb2
    have : cur ≤ min (cur + chunkDuration [w] tps) en := le_min (by linarith) h2
    linarith
  | case4 cur w w2 rest idx hlen ce ih =>
    intro h1 h2
    have hd : 0 ≤ chunkDuration [w, w2] tps := chunkDuration_nonneg _ _ htps
    have hce1 : st ≤ min (cur + chunkDuration [w, w2] tps) en :=
      le_min (by linarith) (by linarith)
    have hce2 : min (cur + chunkDuration [w, w2] tps) en ≤ en := min_le_right _ _
    rw [emitChunks, if_neg hlen]
    refine List.Chain'.cons' (ih hce1 hce2) ?_
    intro y hy
    have hmem := List.mem_of_mem_head? hy
    obtain ⟨⟨_, hb2⟩, _, _⟩ := emitChunks_bounds st en tps htps _ _ _ hce1 hce2 y hmem
    refine le_trans (max_le_max (le_refl st) ?_) hb2
    have : cur ≤ min (cur + chunkDuration [w, w2] tps) en := le_min (by linarith) h2
    linarith

/-- The inner loop numbers its cues consecutively from `idx`. -/
theorem emitChunks_indices (st en tps : ℚ) (cur : ℚ) (ws : List String) (idx : ℕ) :
    (emitChunks st en tps cur ws idx).map Cue.index =
      List.range' idx (emitChunks st en tps cur ws idx).length := by
  induction cur, ws, idx using emitChunks.induct st en tps with
  | case1 cur idx => simp [emitChunks]
  | case2 cur w idx => simp [emitChunks, List.range'_succ]
  | case3 cur w w2 rest idx hlen ce ih =>
    rw [emitChunks, if_pos hlen]
    simp only [List.map_cons, List.length_cons, List.range'_succ]
    exact congrArg (List.cons idx) ih
  | case4 cur w w2 rest idx hlen ce ih =>
    rw [emitChunks, if_neg hlen]
    simp only [List.map_cons, List.length_cons, List.range'_succ]
    exact congrArg (List.cons idx) ih

/-- Well-formed segments (`start ≤ end`) produce cues that start no later
than they end. -/
theorem processSegments_duration (segs : List Segment) :
    ∀ idx, (∀ s ∈ segs, s.start ≤ s.endTime) →
    ∀ c ∈ processSegments segs idx, c.start ≤ c.endTime := by
  induction segs with
  | nil => intro idx _ c hc; simp [processSegments] at hc
  | cons seg rest ih =>
    intro idx hWF c hc
    have hseg : seg.start ≤ seg.endTime := hWF seg (List.mem_cons_self _ _)
    have hrest : ∀ s ∈ rest, s.start ≤ s.endTime :=
      fun s hs => hWF s (List.mem_cons_of_mem _ hs)
    rw [processSegments] at hc
    by_cases hw : segmentWords seg = []
    · rw [if_pos hw] at hc
      exact ih idx hrest c hc
    · rw [if_neg hw] at hc
      rcases List.mem_append.mp hc with hc | hc
      · have htps : 0 ≤ timePerSyllable (seg.endTime - seg.start)
            (totalSyllables (segmentWords seg)) :=
          timePerSyllable_nonneg _ _ (by linarith)
        obtain ⟨_, hb, _⟩ := emitChunks_bounds seg.start seg.endTime _ htps
          seg.start (segmentWords seg) idx (le_refl _) hseg c hc
        exact hb
      · exact ih _ hrest c hc

/-- Cue starts across the whole pass are non-decreasing, and every cue of
the pass starts no earlier than the first segment starts.  Hypotheses:
each segment is well formed (`start ≤ end`) and consecutive segments do
not overlap (`end ≤` next `start`). -/
theorem processSegments_chain (segs : List Segment) :
    ∀ idx, (∀ s ∈ segs, s.start ≤ s.endTime) →
    List.Chain' (fun a b => a.endTime ≤ b.start) segs →
    List.Chain' (fun a b : Cue => a.start ≤ b.start) (processSegments segs idx) ∧
    (∀ c ∈ processSegments segs idx, ∀ s0, segs.head? = some s0 →
      s0.start ≤ c.start) := by
  induction segs with
  | nil => intro idx _ _; simp [processSegments]
  | cons seg rest ih =>
    intro idx hWF hSep
    have hseg : seg.start ≤ seg.endTime := hWF seg (List.mem_cons_self _ _)
    have hrest : ∀ s ∈ rest, s.start ≤ s.endTime :=
      fun s hs => hWF s (List.mem_cons_of_mem _ hs)
    obtain ⟨hhead, hSepRest⟩ := List.chain'_cons'.mp hSep
    have hnextstart : ∀ c ∈ processSegments rest idx, seg.endTime ≤ c.start := by
      intro c hc
      cases rest with
      | nil => simp [processSegments] at hc
      | cons s1 rest1 =>
        have h1 : seg.endTime ≤ s1.start := hhead s1 rfl
        have h2 := (ih idx hrest hSepRest).2 c hc s1 rfl
        linarith
    rw [processSegments]
    by_cases hw : segmentWords seg = []
    · rw [if_pos hw]
      refine ⟨(ih idx hrest hSepRest).1, ?_⟩
      intro c hc s0 hs0
      obtain rfl : seg = s0 := by simpa using hs0
      have := hnextstart c hc
      linarith
    · rw [if_neg hw]
      have htps : 0 ≤ timePerSyllable (seg.endTime - seg.start)
          (totalSyllables (segmentWords seg)) :=
        timePerSyllable_nonneg _ _ (by linarith)
      have hbounds := emitChunks_bounds seg.start seg.endTime _ htps
        seg.start (segmentWords seg) idx (le_refl _) hseg
      have hchain := emitChunks_chain seg.start seg.endTime _ htps
        seg.start (segmentWords seg) idx (le_refl _) hseg
      set cues := emitChunks seg.start seg.endTime
        (timePerSyllable (seg.endTime - seg.start)
          (totalSyllables (segmentWords seg)))
        seg.start (segmentWords seg) idx with hcues
      have hnext' : ∀ c ∈ processSegments rest (idx + cues.length),
          seg.endTime ≤ c.start := by
        intro c hc
        cases rest with
        | nil => simp [processSegments] at hc
        | cons s1 rest1 =>
          have h1 : seg.endTime ≤ s1.start := hhead s1 rfl
          have h2 := (ih (idx + cues.length) hrest hSepRest).2 c hc s1 rfl
          linarith
      constructor
      · rw [List.chain'_append]
        refine ⟨hchain, (ih (idx + cues.length) hrest hSepRest).1, ?_⟩
        intro x hx y hy
        have hxm : x ∈ cues := List.mem_of_mem_getLast? hx
        have hym := List.mem_of_mem_head? hy
        obtain ⟨_, _, hx3⟩ := hbounds x hxm
        have := hnext' y hym
        linarith
      · intro c hc s0 hs0
        obtain rfl : seg = s0 := by simpa using hs0
        rcases List.mem_append.mp hc with hc | hc
        · exact (hbounds c hc).1.1
        · have := hnext' c hc
          linarith

/-- The whole pass numbers its cues consecutively from `idx`. -/
theorem processSegments_indices (segs : List Segment) :
    ∀ idx, (processSegments segs idx).map Cue.index =
      List.range' idx (processSegments segs idx).length := by
  induction segs with
  | nil => intro idx; simp [processSegments]
  | cons seg rest ih =>
    intro idx
    rw [processSegments]
    by_cases hw : segmentWords seg = []
    · rw [if_pos hw]; exact ih idx
    · rw [if_neg hw]
      set cues := emitChunks seg.start seg.endTime
        (timePerSyllable (seg.endTime - seg.start)
          (totalSyllables (segmentWords seg)))
        seg.start (segmentWords seg) idx with hcues
      have h1 : cues.map Cue.index = List.range' idx cues.length :=
        emitChunks_indices _ _ _ _ _ _
      have h2 := ih (idx + cues.length)
      rw [List.map_append, h1, h2, List.length_append]
      have harr := List.range'_append idx cues.length
        (processSegments rest (idx + cues.length)).length 1
      simp only [one_mul, Nat.mul_one] at harr
      rw [← hcues, harr]
      congr 1
      omega

/-- C1 (counterexample): the single word unit `{start: 0.0, end: 0.1,
text: "sí"}` yields one cue whose end is `0.1`, not `0.5` — its duration
`0.1 - 0.0` is below the claimed half-second floor, so no floor is
applied. -/
theorem bookoly_no_duration_floor_counterexample :
    processSegments [⟨0, 1/10, "sí"⟩] 1 = [⟨1, 0, 1/10, "SÍ"⟩] ∧
      ¬ ((1 : ℚ)/2 ≤ 1/10 - 0) := by
  constructor
  · have hw : segmentWords ⟨0, 1/10, "sí"⟩ = ["sí"] := rfl
    have hs : totalSyllables ["sí"] = 1 := rfl
    have htxt : upperStr (String.intercalate " " ["sí"]) = "SÍ" := rfl
    simp only [processSegments, hw, hs, emitChunks, htxt]
    norm_num [timePerSyllable, chunkDuration, hs, Cue.mk.injEq, max_def, min_def]
    rfl
  · norm_num

/-- C1 (amended): no half-second minimum-duration floor exists in
`_create_smooth_bookoly_srt`; what holds is that for well-formed segments
(`start ≤ end`) every emitted cue satisfies `end - start ≥ 0`, the cue end
being clamped to the segment end instead of floored. -/
theorem bookoly_cue_duration_nonneg (segments : List Segment)
    (hWF : ∀ s ∈ segments, s.start ≤ s.endTime) :
    ∀ c ∈ processSegments segments 1, 0 ≤ c.endTime - c.start := by
  intro c hc
  have := processSegments_duration segments 1 hWF c hc
  linarith

theorem bookoly_cue_duration_nonneg_witness :
    (∀ s ∈ [(⟨0, 1/10, "sí"⟩ : Segment)], s.start ≤ s.endTime) ∧
    ∀ c ∈ processSegments [(⟨0, 1/10, "sí"⟩ : Segment)] 1,
      0 ≤ c.endTime - c.start := by
  have hWF : ∀ s ∈ [(⟨0, 1/10, "sí"⟩ : Segment)], s.start ≤ s.endTime := by
    intro s hs
    simp only [List.mem_singleton] at hs
    subst hs
    norm_num
  exact ⟨hWF, bookoly_cue_duration_nonneg _ hWF⟩

/-- C4: for segment lists ordered by start, non-overlapping and with
`end ≥ start`, the produced cues carry indices that are contiguous
starting at 1, and cue starts are non-decreasing. -/
theorem bookoly_cue_indices_and_monotone_starts (segments : List Segment)
    (hWF : ∀ s ∈ segments, s.start ≤ s.endTime)
    (hSep : List.Chain' (fun a b => a.endTime ≤ b.start) segments) :
    (processSegments segments 1).map Cue.index =
      List.range' 1 (processSegments segments 1).length ∧
    List.Chain' (fun a b : Cue => a.start ≤ b.start) (processSegments segments 1) :=
  ⟨processSegments_indices segments 1,
    (processSegments_chain segments 1 hWF hSep).1⟩

theorem bookoly_cue_indices_and_monotone_starts_witness :
    ((∀ s ∈ [(⟨0, 1, "hola mundo"⟩ : Segment), ⟨2, 3, "sí"⟩],
        s.start ≤ s.endTime) ∧
      List.Chain' (fun a b => a.endTime ≤ b.start)
        [(⟨0, 1, "hola mundo"⟩ : Segment), ⟨2, 3, "sí"⟩]) ∧
    ((processSegments [(⟨0, 1, "hola mundo"⟩ : Segment), ⟨2, 3, "sí"⟩] 1).map
        Cue.index =
      List.range' 1
        (processSegments [(⟨0, 1, "hola mundo"⟩ : Segment), ⟨2, 3, "sí"⟩] 1).length ∧
    List.Chain' (fun a b : Cue => a.start ≤ b.start)
      (processSegments [(⟨0, 1, "hola mundo"⟩ : Segment), ⟨2, 3, "sí"⟩] 1)) := by
  have hWF : ∀ s ∈ [(⟨0, 1, "hola mundo"⟩ : Segment), ⟨2, 3, "sí"⟩],
      s.start ≤ s.endTime := by
    intro s hs
    rcases List.mem_cons.mp hs with rfl | hs
    · norm_num
    · rcases List.mem_cons.mp hs with rfl | hs
      · norm_num
      · simp at hs
  have hSep : List.Chain' (fun a b => a.endTime ≤ b.start)
      [(⟨0, 1, "hola mundo"⟩ : Segment), ⟨2, 3, "sí"⟩] := by
    rw [List.chain'_cons]
    exact ⟨by norm_num, List.chain'_singleton _⟩
  exact ⟨⟨hWF, hSep⟩,
    bookoly_cue_indices_and_monotone_starts _ hWF hSep⟩

/-- C5: the syllable estimate equals the spec's description (count of
transitions from non-vowel to vowel in the lowercased word, minimum 1),
and — because every word counts at least one syllable, so the
`total_syllables > 0` guard always takes the division branch on a
non-empty word list — each chunk's computed duration equals the chunk's
syllable sum times `segment duration / total syllables`. -/
theorem syllable_weighting_correct :
    (∀ w : String, estimate_syllables w = spec_syllables w) ∧
    (∀ ws : List String, ws ≠ [] → 0 < totalSyllables ws) ∧
    (∀ (ws chunk : List String) (dur : ℚ), ws ≠ [] →
      chunkDuration chunk (timePerSyllable dur (totalSyllables ws)) =
        (totalSyllables chunk : ℚ) * (dur / (totalSyllables ws : ℚ))) := by
  have hone : ∀ w : String, 1 ≤ estimate_syllables w := by
    intro w
    exact le_max_left _ _
  have hpos : ∀ ws : List String, ws ≠ [] → 0 < totalSyllables ws := by
    intro ws hws
    cases ws with
    | nil => exact absurd rfl hws
    | cons w rest =>
      have := hone w
      simp only [totalSyllables, List.map_cons, List.sum_cons]
      omega
  refine ⟨?_, hpos, ?_⟩
  · intro w
    unfold estimate_syllables spec_syllables
    rw [syllable_loop_eq_countP]
  · intro ws chunk dur hws
    unfold chunkDuration timePerSyllable
    rw [if_pos (hpos ws hws)]

theorem syllable_weighting_correct_witness :
    (["sí"] ≠ ([] : List String)) ∧
    estimate_syllables "mundo" = spec_syllables "mundo" ∧
    0 < totalSyllables ["sí"] ∧
    chunkDuration ["hola"] (timePerSyllable 2 (totalSyllables ["sí"])) =
      (totalSyllables ["hola"] : ℚ) * (2 / (totalSyllables ["sí"] : ℚ)) := by
  refine ⟨by simp, syllable_weighting_correct.1 "mundo",
    syllable_weighting_correct.2.1 ["sí"] (by simp),
    syllable_weighting_correct.2.2 ["sí"] ["hola"] 2 (by simp)⟩

/-- C3: captions longer than `CAPTION_MAX_LENGTH` are cut to exactly that
length with the three-character ellipsis marker as the final characters;
captions within the limit pass through unchanged. -/
theorem caption_truncation_correct (c : List Char) :
    (CAPTION_MAX_LENGTH < c.length →
      (truncate_caption c).length = CAPTION_MAX_LENGTH ∧
      (truncate_caption c).drop (CAPTION_MAX_LENGTH - 3) = ['.', '.', '.']) ∧
    (c.length ≤ CAPTION_MAX_LENGTH → truncate_caption c = c) := by
  constructor
  · intro h
    unfold truncate_caption
    rw [if_pos h]
    have hlen : (c.take (CAPTION_MAX_LENGTH - 3)).length = CAPTION_MAX_LENGTH - 3 := by
      rw [List.length_take]
      simp only [CAPTION_MAX_LENGTH] at h ⊢
      omega
    constructor
    · rw [List.length_append, hlen]
      simp [CAPTION_MAX_LENGTH]
    · exact List.drop_left' hlen
  · intro h
    unfold truncate_caption
    rw [if_neg (by omega)]

theorem caption_truncation_correct_witness :
    (CAPTION_MAX_LENGTH < (List.replicate 2201 'a').length ∧
      (truncate_caption (List.replicate 2201 'a')).length = CAPTION_MAX_LENGTH ∧
      (truncate_caption (List.replicate 2201 'a')).drop (CAPTION_MAX_LENGTH - 3) =
        ['.', '.', '.']) ∧
    ((['h', 'i'] : List Char).length ≤ CAPTION_MAX_LENGTH ∧
      truncate_caption ['h', 'i'] = ['h', 'i']) := by
  have h1 : CAPTION_MAX_LENGTH < (List.replicate 2201 'a').length := by
    rw [List.length_replicate]
    norm_num [CAPTION_MAX_LENGTH]
  have h2 : (['h', 'i'] : List Char).length ≤ CAPTION_MAX_LENGTH := by
    simp [CAPTION_MAX_LENGTH]
  exact ⟨⟨h1, (caption_truncation_correct _).1 h1⟩,
    ⟨h2, (caption_truncation_correct _).2 h2⟩⟩

/-! ### Association-list and pending-list lemmas -/

theorem alookup_aset_self {κ α : Type} [DecidableEq κ] (k : κ) (v : α)
    (l : List (κ × α)) : alookup k (aset k v l) = some v := by
  induction l with
  | nil => simp [aset, alookup]
  | cons p rest ih =>
    obtain ⟨k', v'⟩ := p
    by_cases h : k' = k <;> simp [aset, alookup, h, ih]

theorem alookup_aset_ne {κ α : Type} [DecidableEq κ] (k k' : κ) (hne : k' ≠ k)
    (v : α) (l : List (κ × α)) : alookup k (aset k' v l) = alookup k l := by
  induction l with
  | nil => simp [aset, alookup, hne]
  | cons p rest ih =>
    obtain ⟨k'', v''⟩ := p
    by_cases h : k'' = k' <;> by_cases h2 : k'' = k <;>
      simp_all [aset, alookup]

theorem alookup_aerase_ne {κ α : Type} [DecidableEq κ] (k k' : κ) (hne : k' ≠ k)
    (l : List (κ × α)) : alookup k (aerase k' l) = alookup k l := by
  induction l with
  | nil => simp [aerase, alookup]
  | cons p rest ih =>
    obtain ⟨k'', v''⟩ := p
    by_cases h : k'' = k' <;> by_cases h2 : k'' = k <;>
      simp_all [aerase, alookup]

theorem aset_absent {κ α : Type} [DecidableEq κ] (k : κ) (v : α)
    (l : List (κ × α)) (h : alookup k l = none) : aset k v l = l ++ [(k, v)] := by
  induction l with
  | nil => simp [aset]
  | cons p rest ih =>
    obtain ⟨k', v'⟩ := p
    by_cases hk : k' = k
    · simp [alookup, hk] at h
    · simp [aset, alookup, hk] at h ⊢
      exact ih h

theorem alookup_append_self {κ α : Type} [DecidableEq κ] (k : κ) (v : α)
    (l : List (κ × α)) (h : alookup k l = none) :
    alookup k (l ++ [(k, v)]) = some v := by
  induction l with
  | nil => simp [alookup]
  | cons p rest ih =>
    obtain ⟨k', v'⟩ := p
    by_cases hk : k' = k
    · simp [alookup, hk] at h
    · simp [alookup, hk] at h ⊢
      exact ih h

theorem aset_append_self {κ α : Type} [DecidableEq κ] (k : κ) (v w : α)
    (l : List (κ × α)) (h : alookup k l = none) :
    aset k v (l ++ [(k, w)]) = l ++ [(k, v)] := by
  induction l with
  | nil => simp [aset]
  | cons p rest ih =>
    obtain ⟨k', v'⟩ := p
    by_cases hk : k' = k
    · simp [alookup, hk] at h
    · simp [aset, alookup, hk] at h ⊢
      exact ih h

theorem aerase_append_self {κ α : Type} [DecidableEq κ] (k : κ) (v : α)
    (l : List (κ × α)) (h : alookup k l = none) :
    aerase k (l ++ [(k, v)]) = l := by
  induction l with
  | nil => simp [aerase]
  | cons p rest ih =>
    obtain ⟨k', v'⟩ := p
    by_cases hk : k' = k
    · simp [alookup, hk] at h
    · simp [aerase, alookup, hk] at h ⊢
      exact ih h

theorem perase_append_self (p : String × ℕ) (l : List (String × ℕ))
    (h : p ∉ l) : perase p (l ++ [p]) = l := by
  induction l with
  | nil => simp [perase]
  | cons q rest ih =>
    simp only [List.mem_cons, not_or] at h
    have hq : (q :: rest) ++ [p] = q :: (rest ++ [p]) := rfl
    rw [hq, perase, if_neg (fun hqp => h.1 hqp.symm), ih h.2]

theorem mem_of_mem_perase (p q : String × ℕ) (l : List (String × ℕ))
    (h : q ∈ perase p l) : q ∈ l := by
  induction l with
  | nil => simp [perase] at h
  | cons r rest ih =>
    simp only [perase] at h
    by_cases hr : r = p
    · rw [if_pos hr] at h
      exact List.mem_cons_of_mem _ h
    · rw [if_neg hr] at h
      rcases List.mem_cons.mp h with rfl | h
      · exact List.mem_cons_self _ _
      · exact List.mem_cons_of_mem _ (ih h)

/-! ### Carousel aggregator: burst behaviour -/

/-- Arrivals to an existing group append the items in order to the
group's list object and touch nothing else. -/
theorem run_arrivals (gid caption : String) (items : List ℕ) :
    ∀ (n oid : ℕ) (S : List (ℕ × List ℕ)) (G : List (String × ℕ))
      (C : List (String × String)) (Pd : List (String × ℕ))
      (Pb : List (String × List ℕ)) (acc : List ℕ),
    alookup gid G = none → alookup oid S = none →
    runEvents ⟨n, S ++ [(oid, acc)], G ++ [(gid, oid)], C, Pd, Pb⟩
        (items.map (AggEvent.arrive gid caption)) =
      ⟨n, S ++ [(oid, acc ++ items)], G ++ [(gid, oid)], C, Pd, Pb⟩ := by
  induction items with
  | nil => intro n oid S G C Pd Pb acc hG hS; simp [runEvents]
  | cons it rest ih =>
    intro n oid S G C Pd Pb acc hG hS
    have hg1 : alookup gid (G ++ [(gid, oid)]) = some oid :=
      alookup_append_self gid oid G hG
    have hs1 : alookup oid (S ++ [(oid, acc)]) = some acc :=
      alookup_append_self oid acc S hS
    simp only [List.map_cons, runEvents, List.foldl_cons]
    have hstep :
        stepEvent ⟨n, S ++ [(oid, acc)], G ++ [(gid, oid)], C, Pd, Pb⟩
          (AggEvent.arrive gid caption it) =
          ⟨n, S ++ [(oid, acc ++ [it])], G ++ [(gid, oid)], C, Pd, Pb⟩ := by
      simp only [stepEvent, carousel_arrive, hg1, Option.isNone_some,
        Bool.false_eq_true, if_false]
      simp [hg1, hs1, aset_append_self oid (acc ++ [it]) acc S hS]
    rw [hstep]
    have := ih n oid S G C Pd Pb (acc ++ [it]) hG hS
    simp only [runEvents] at this
    rw [this]
    simp

/-- Quiet-period expiries for a group that is no longer registered change
nothing (the source raises `KeyError` at the count check, caught one
level up). -/
theorem run_fires_absent (gid : String) (m : ℕ) :
    ∀ s : ProcState, alookup gid s.carousel_groups = none →
    runEvents s (List.replicate m (AggEvent.fire gid)) = s := by
  induction m with
  | zero => intro s h; simp [runEvents]
  | succ k ih =>
    intro s h
    have hstep : stepEvent s (AggEvent.fire gid) = s := by
      simp [stepEvent, carousel_fire, h]
    simp only [List.replicate_succ, runEvents, List.foldl_cons, hstep]
    exact ih s h

/-- The serialized burst run in full: the whole state change is one
published record carrying exactly the arrived items (plus the orphaned
list object left in the store, as in Python, where the list object
outlives its dictionary binding). -/
theorem run_serialized_trace (gid caption : String) (items : List ℕ)
    (n : ℕ) (S : List (ℕ × List ℕ)) (G : List (String × ℕ))
    (C : List (String × String)) (Pd : List (String × ℕ))
    (Pb : List (String × List ℕ))
    (hG : alookup gid G = none) (hC : alookup gid C = none)
    (hS : alookup n S = none) (hPd : ∀ p ∈ Pd, p.1 ≠ gid)
    (hpos : 0 < items.length) (hmax : items.length ≤ MAX_CAROUSEL_ITEMS) :
    runEvents ⟨n, S, G, C, Pd, Pb⟩
        (serializedCarouselTrace gid caption items n) =
      ⟨n + 1, S ++ [(n, items)], G, C, Pd, Pb ++ [(gid, items)]⟩ := by
  obtain ⟨it, rest, rfl⟩ : ∃ it rest, items = it :: rest := by
    cases items with
    | nil => simp at hpos
    | cons a b => exact ⟨a, b, rfl⟩
  have hg1 : alookup gid (G ++ [(gid, n)]) = some n :=
    alookup_append_self gid n G hG
  have hs1 : alookup n (S ++ [(n, it :: rest)]) = some (it :: rest) :=
    alookup_append_self n (it :: rest) S hS
  -- the first arrival allocates the list object and stores the first item
  have hfirst :
      stepEvent ⟨n, S, G, C, Pd, Pb⟩ (AggEvent.arrive gid caption it) =
        ⟨n + 1, S ++ [(n, [it])], G ++ [(gid, n)],
          C ++ [(gid, caption)], Pd, Pb⟩ := by
    simp only [stepEvent, carousel_arrive, hG, Option.isNone_none, if_true]
    have hsetS : aset n ([] : List ℕ) S = S ++ [(n, [])] := aset_absent n [] S hS
    have hsetG : aset gid n G = G ++ [(gid, n)] := aset_absent gid n G hG
    have hsetC : aset gid caption C = C ++ [(gid, caption)] :=
      aset_absent gid caption C hC
    simp only [hsetS, hsetG, hsetC]
    have hs0 : alookup n (S ++ [(n, ([] : List ℕ))]) = some [] :=
      alookup_append_self n [] S hS
    simp [hg1, hs0, aset_append_self n [it] ([] : List ℕ) S hS]
  -- the first expiry's synchronous prefix registers the in-flight publish
  have hfire :
      stepEvent ⟨n + 1, S ++ [(n, it :: rest)], G ++ [(gid, n)],
          C ++ [(gid, caption)], Pd, Pb⟩ (AggEvent.fire gid) =
        ⟨n + 1, S ++ [(n, it :: rest)], G ++ [(gid, n)],
          C ++ [(gid, caption)], Pd ++ [(gid, n)], Pb⟩ := by
    simp only [stepEvent, carousel_fire, hg1, hs1, Option.getD_some]
    rw [if_pos (by simpa using hmax)]
  -- its completion publishes the captured list and removes both entries
  have hnot : (gid, n) ∉ Pd := fun hin => hPd _ hin rfl
  have hcomp :
      stepEvent ⟨n + 1, S ++ [(n, it :: rest)], G ++ [(gid, n)],
          C ++ [(gid, caption)], Pd ++ [(gid, n)], Pb⟩
          (AggEvent.complete gid n) =
        ⟨n + 1, S ++ [(n, it :: rest)], G, C, Pd,
          Pb ++ [(gid, it :: rest)]⟩ := by
    simp only [stepEvent, carousel_complete]
    rw [if_pos (by simp)]
    simp only [perase_append_self (gid, n) Pd hnot, hs1, Option.getD_some, hg1]
    simp [aerase_append_self gid n G hG,
      aerase_append_self gid caption C hC]
  have hlen : (it :: rest).length - 1 = rest.length := by simp
  simp only [serializedCarouselTrace, hlen, List.map_cons, runEvents,
    List.foldl_append, List.foldl_cons]
  rw [hfirst]
  have harr := run_arrivals gid caption rest (n + 1) n S G
    (C ++ [(gid, caption)]) Pd Pb [it] hG hS
  simp only [runEvents] at harr
  rw [harr]
  simp only [List.singleton_append]
  rw [hfire, hcomp]
  have := run_fires_absent gid rest.length
    ⟨n + 1, S ++ [(n, it :: rest)], G, C, Pd, Pb ++ [(gid, it :: rest)]⟩
    (by simpa using hG)
  simpa [runEvents] using this

/-- C2 (counterexample): two arrivals milliseconds apart, with the upload
slower than the gap between the two quiet-period expiries — both expiries
pass the count and membership checks before either in-flight publish
reaches its deletion, so the same two-item group is published twice
(the duplicate-flush race of spec §9). -/
theorem carousel_duplicate_flush_counterexample :
    (runEvents ⟨0, [], [], [], [], []⟩
        [AggEvent.arrive "g" "c" 1, AggEvent.arrive "g" "c" 2,
         AggEvent.fire "g", AggEvent.fire "g",
         AggEvent.complete "g" 0, AggEvent.complete "g" 0]).published =
      [("g", [1, 2]), ("g", [1, 2])] ∧
    ¬ ((runEvents ⟨0, [], [], [], [], []⟩
        [AggEvent.arrive "g" "c" 1, AggEvent.arrive "g" "c" 2,
         AggEvent.fire "g", AggEvent.fire "g",
         AggEvent.complete "g" 0, AggEvent.complete "g" 0]).published.length = 1) := by
  decide

/-- C2 (amended): every expired timer that still finds the group
registered with at most `MAX_CAROUSEL_ITEMS` items starts its own publish
of that group, so a burst flushes exactly once only under the serialized
schedule, where the first publish completes (and deletes the registry
entries) before the remaining sleeps expire.  Under that schedule a burst
of `N ≥ 1` arrivals with `N ≤ MAX_CAROUSEL_ITEMS`, to a group id with no
in-flight publish, produces exactly one flush carrying exactly the `N`
arrived items, and afterwards the group id is absent from both
`carousel_groups` and `carousel_captions`.  When expiries overlap an
in-flight publish instead, each starts a duplicate flush (see the
counterexample). -/
theorem carousel_serialized_single_flush (gid caption : String)
    (items : List ℕ) (n : ℕ) (S : List (ℕ × List ℕ))
    (G : List (String × ℕ)) (C : List (String × String))
    (Pd : List (String × ℕ)) (Pb : List (String × List ℕ))
    (hG : alookup gid G = none) (hC : alookup gid C = none)
    (hS : alookup n S = none) (hPd : ∀ p ∈ Pd, p.1 ≠ gid)
    (hpos : 0 < items.length) (hmax : items.length ≤ MAX_CAROUSEL_ITEMS) :
    (runEvents ⟨n, S, G, C, Pd, Pb⟩
        (serializedCarouselTrace gid caption items n)).published =
      Pb ++ [(gid, items)] ∧
    alookup gid (runEvents ⟨n, S, G, C, Pd, Pb⟩
        (serializedCarouselTrace gid caption items n)).carousel_groups = none ∧
    alookup gid (runEvents ⟨n, S, G, C, Pd, Pb⟩
        (serializedCarouselTrace gid caption items n)).carousel_captions = none ∧
    (runEvents ⟨n, S, G, C, Pd, Pb⟩
        (serializedCarouselTrace gid caption items n)).pending = Pd := by
  rw [run_serialized_trace gid caption items n S G C Pd Pb hG hC hS hPd hpos hmax]
  exact ⟨rfl, hG, hC, rfl⟩

theorem carousel_serialized_single_flush_witness :
    (runEvents ⟨0, [], [], [], [], []⟩
        (serializedCarouselTrace "g1" "cap" [5, 6, 7] 0)).published =
      [("g1", [5, 6, 7])] ∧
    alookup "g1" (runEvents ⟨0, [], [], [], [], []⟩
        (serializedCarouselTrace "g1" "cap" [5, 6, 7] 0)).carousel_groups = none ∧
    alookup "g1" (runEvents ⟨0, [], [], [], [], []⟩
        (serializedCarouselTrace "g1" "cap" [5, 6, 7] 0)).carousel_captions = none ∧
    (runEvents ⟨0, [], [], [], [], []⟩
        (serializedCarouselTrace "g1" "cap" [5, 6, 7] 0)).pending = [] := by
  have h := carousel_serialized_single_flush "g1" "cap" [5, 6, 7] 0 [] [] [] [] []
    rfl rfl rfl (by simp) (by simp) (by simp [MAX_CAROUSEL_ITEMS])
  simpa using h

/-! ### Oversized groups -/

/-- C9 (counterexample): ten items arrive in a burst; the first expiry
finds 10 ≤ 10 and enters `publish_carousel`, suspending on the awaited
upload with a reference to the group's list; an eleventh item then
arrives and appends to that same list; a later expiry sees 11 > 10 —
the claim's premise — and skips; yet the in-flight publish completes,
publishes the now-eleven-item list and deletes both registry entries.
The group is published and its entries do not persist. -/
theorem carousel_oversized_published_counterexample :
    alookup "g" (runEvents ⟨0, [], [], [], [], []⟩
        [AggEvent.arrive "g" "c" 1, AggEvent.arrive "g" "c" 2,
         AggEvent.arrive "g" "c" 3, AggEvent.arrive "g" "c" 4,
         AggEvent.arrive "g" "c" 5, AggEvent.arrive "g" "c" 6,
         AggEvent.arrive "g" "c" 7, AggEvent.arrive "g" "c" 8,
         AggEvent.arrive "g" "c" 9, AggEvent.arrive "g" "c" 10,
         AggEvent.fire "g", AggEvent.arrive "g" "c" 11]).carousel_groups =
      some 0 ∧
    alookup 0 (runEvents ⟨0, [], [], [], [], []⟩
        [AggEvent.arrive "g" "c" 1, AggEvent.arrive "g" "c" 2,
         AggEvent.arrive "g" "c" 3, AggEvent.arrive "g" "c" 4,
         AggEvent.arrive "g" "c" 5, AggEvent.arrive "g" "c" 6,
         AggEvent.arrive "g" "c" 7, AggEvent.arrive "g" "c" 8,
         AggEvent.arrive "g" "c" 9, AggEvent.arrive "g" "c" 10,
         AggEvent.fire "g", AggEvent.arrive "g" "c" 11]).store =
      some [1, 2, 3, 4, 5, 6, 7, 8, 9, 10, 11] ∧
    MAX_CAROUSEL_ITEMS <
      ([1, 2, 3, 4, 5, 6, 7, 8, 9, 10, 11] : List ℕ).length ∧
    carousel_fire "g" (runEvents ⟨0, [], [], [], [], []⟩
        [AggEvent.arrive "g" "c" 1, AggEvent.arrive "g" "c" 2,
         AggEvent.arrive "g" "c" 3, AggEvent.arrive "g" "c" 4,
         AggEvent.arrive "g" "c" 5, AggEvent.arrive "g" "c" 6,
         AggEvent.arrive "g" "c" 7, AggEvent.arrive "g" "c" 8,
         AggEvent.arrive "g" "c" 9, AggEvent.arrive "g" "c" 10,
         AggEvent.fire "g", AggEvent.arrive "g" "c" 11]) =
      runEvents ⟨0, [], [], [], [], []⟩
        [AggEvent.arrive "g" "c" 1, AggEvent.arrive "g" "c" 2,
         AggEvent.arrive "g" "c" 3, AggEvent.arrive "g" "c" 4,
         AggEvent.arrive "g" "c" 5, AggEvent.arrive "g" "c" 6,
         AggEvent.arrive "g" "c" 7, AggEvent.arrive "g" "c" 8,
         AggEvent.arrive "g" "c" 9, AggEvent.arrive "g" "c" 10,
         AggEvent.fire "g", AggEvent.arrive "g" "c" 11] ∧
    (runEvents ⟨0, [], [], [], [], []⟩
        [AggEvent.arrive "g" "c" 1, AggEvent.arrive "g" "c" 2,
         AggEvent.arrive "g" "c" 3, AggEvent.arrive "g" "c" 4,
         AggEvent.arrive "g" "c" 5, AggEvent.arrive "g" "c" 6,
         AggEvent.arrive "g" "c" 7, AggEvent.arrive "g" "c" 8,
         AggEvent.arrive "g" "c" 9, AggEvent.arrive "g" "c" 10,
         AggEvent.fire "g", AggEvent.arrive "g" "c" 11,
         AggEvent.fire "g", AggEvent.complete "g" 0]).published =
      [("g", [1, 2, 3, 4, 5, 6, 7, 8, 9, 10, 11])] ∧
    alookup "g" (runEvents ⟨0, [], [], [], [], []⟩
        [AggEvent.arrive "g" "c" 1, AggEvent.arrive "g" "c" 2,
         AggEvent.arrive "g" "c" 3, AggEvent.arrive "g" "c" 4,
         AggEvent.arrive "g" "c" 5, AggEvent.arrive "g" "c" 6,
         AggEvent.arrive "g" "c" 7, AggEvent.arrive "g" "c" 8,
         AggEvent.arrive "g" "c" 9, AggEvent.arrive "g" "c" 10,
         AggEvent.fire "g", AggEvent.arrive "g" "c" 11,
         AggEvent.fire "g", AggEvent.complete "g" 0]).carousel_groups =
      none := by
  decide

/-- One step preserves "the oversized group is stuck" — provided no
publish of it is in flight: the group's binding, list object and caption
persist, the list only grows, no in-flight publish of the group appears,
and no publish of it is recorded. -/
theorem step_preserves_oversized (gid cap : String) (oid : ℕ) (its : List ℕ)
    (s : ProcState) (e : AggEvent)
    (hg : alookup gid s.carousel_groups = some oid)
    (hst : alookup oid s.store = some its)
    (hc : alookup gid s.carousel_captions = some cap)
    (hover : MAX_CAROUSEL_ITEMS < its.length)
    (hfresh : oid < s.next_id)
    (hpend : ∀ p ∈ s.pending, p.1 ≠ gid) :
    alookup gid (stepEvent s e).carousel_groups = some oid ∧
    (∃ its1, alookup oid (stepEvent s e).store = some its1 ∧
      its.length ≤ its1.length) ∧
    alookup gid (stepEvent s e).carousel_captions = some cap ∧
    oid < (stepEvent s e).next_id ∧
    (∀ p ∈ (stepEvent s e).pending, p.1 ≠ gid) ∧
    (stepEvent s e).published.countP (fun p => p.1 = gid) =
      s.published.countP (fun p => p.1 = gid) := by
  cases e with
  | arrive gid' cap' item =>
    by_cases hgid : gid = gid'
    · subst hgid
      have hstep : stepEvent s (AggEvent.arrive gid cap' item) =
          { s with store := aset oid (its ++ [item]) s.store } := by
        simp [stepEvent, carousel_arrive, hg, hst]
      rw [hstep]
      exact ⟨hg, ⟨its ++ [item], alookup_aset_self oid _ _, by simp⟩,
        hc, hfresh, hpend, rfl⟩
    · have hne' : gid' ≠ gid := fun h => hgid h.symm
      rcases h0 : alookup gid' s.carousel_groups with _ | oid'
      · -- first contact for gid': allocation at the fresh id s.next_id
        have hne : oid ≠ s.next_id := by omega
        have hgg : alookup gid' (aset gid' s.next_id s.carousel_groups) =
            some s.next_id := alookup_aset_self gid' s.next_id _
        have hs0 : alookup s.next_id (aset s.next_id ([] : List ℕ) s.store) =
            some [] := alookup_aset_self s.next_id [] _
        have hstep : stepEvent s (AggEvent.arrive gid' cap' item) =
            { s with
              next_id := s.next_id + 1,
              store := aset s.next_id [item] (aset s.next_id ([] : List ℕ) s.store),
              carousel_groups := aset gid' s.next_id s.carousel_groups,
              carousel_captions := aset gid' cap' s.carousel_captions } := by
          simp [stepEvent, carousel_arrive, h0, hgg, hs0]
        rw [hstep]
        refine ⟨?_, ⟨its, ?_, le_refl _⟩, ?_, ?_, hpend, rfl⟩
        · rw [alookup_aset_ne gid gid' hne']
          exact hg
        · rw [alookup_aset_ne oid s.next_id (fun h => hne h.symm),
            alookup_aset_ne oid s.next_id (fun h => hne h.symm)]
          exact hst
        · rw [alookup_aset_ne gid gid' hne']
          exact hc
        · show oid < s.next_id + 1
          omega
      · -- gid' already registered: append to its (possibly aliased) object
        have hstep : stepEvent s (AggEvent.arrive gid' cap' item) =
            { s with store := aset oid' ((alookup oid' s.store).getD [] ++ [item]) s.store } := by
          simp [stepEvent, carousel_arrive, h0]
        rw [hstep]
        by_cases halias : oid' = oid
        · subst halias
          refine ⟨hg, ⟨its ++ [item], ?_, by simp⟩, hc, hfresh, hpend, rfl⟩
          simp only [hst, Option.getD_some]
          exact alookup_aset_self oid' (its ++ [item]) s.store
        · refine ⟨hg, ⟨its, ?_, le_refl _⟩, hc, hfresh, hpend, rfl⟩
          rw [alookup_aset_ne oid oid' halias]
          exact hst
  | fire gid' =>
    by_cases hgid : gid = gid'
    · subst hgid
      have hnot : ¬ ((alookup oid s.store).getD []).length ≤
          MAX_CAROUSEL_ITEMS := by
        rw [hst, Option.getD_some]
        omega
      have hstep : stepEvent s (AggEvent.fire gid) = s := by
        simp [stepEvent, carousel_fire, hg, hnot]
      rw [hstep]
      exact ⟨hg, ⟨its, hst, le_refl _⟩, hc, hfresh, hpend, rfl⟩
    · have hne' : gid' ≠ gid := fun h => hgid h.symm
      rcases h0 : alookup gid' s.carousel_groups with _ | oid''
      · have hstep : stepEvent s (AggEvent.fire gid') = s := by
          simp [stepEvent, carousel_fire, h0]
        rw [hstep]
        exact ⟨hg, ⟨its, hst, le_refl _⟩, hc, hfresh, hpend, rfl⟩
      · by_cases hlen : ((alookup oid'' s.store).getD []).length ≤
            MAX_CAROUSEL_ITEMS
        · have hstep : stepEvent s (AggEvent.fire gid') =
              { s with pending := s.pending ++ [(gid', oid'')] } := by
            simp [stepEvent, carousel_fire, h0, hlen]
          rw [hstep]
          refine ⟨hg, ⟨its, hst, le_refl _⟩, hc, hfresh, ?_, rfl⟩
          intro p hp
          simp only [List.mem_append, List.mem_singleton] at hp
          rcases hp with hp | rfl
          · exact hpend p hp
          · exact hne'
        · have hstep : stepEvent s (AggEvent.fire gid') = s := by
            simp [stepEvent, carousel_fire, h0, hlen]
          rw [hstep]
          exact ⟨hg, ⟨its, hst, le_refl _⟩, hc, hfresh, hpend, rfl⟩
  | complete gid' oid' =>
    by_cases hgid : gid = gid'
    · subst hgid
      have hnot : (gid, oid') ∉ s.pending := fun hin => hpend _ hin rfl
      have hstep : stepEvent s (AggEvent.complete gid oid') = s := by
        simp [stepEvent, carousel_complete, hnot]
      rw [hstep]
      exact ⟨hg, ⟨its, hst, le_refl _⟩, hc, hfresh, hpend, rfl⟩
    · have hne' : gid' ≠ gid := fun h => hgid h.symm
      by_cases hmem : (gid', oid') ∈ s.pending
      · have hpend1 : ∀ p ∈ perase (gid', oid') s.pending, p.1 ≠ gid :=
          fun p hp => hpend p (mem_of_mem_perase _ _ _ hp)
        have hcount : (s.published ++
            [(gid', (alookup oid' s.store).getD [])]).countP
              (fun p => p.1 = gid) =
            s.published.countP (fun p => p.1 = gid) := by
          rw [List.countP_append]
          simp [hne']
        rcases h1 : alookup gid' s.carousel_groups with _ | v
        · have hstep : stepEvent s (AggEvent.complete gid' oid') =
              { s with
                pending := perase (gid', oid') s.pending,
                published := s.published ++
                  [(gid', (alookup oid' s.store).getD [])] } := by
            simp [stepEvent, carousel_complete, hmem, h1]
          rw [hstep]
          exact ⟨hg, ⟨its, hst, le_refl _⟩, hc, hfresh, hpend1, hcount⟩
        · have hstep : stepEvent s (AggEvent.complete gid' oid') =
              { s with
                carousel_groups := aerase gid' s.carousel_groups,
                carousel_captions := aerase gid' s.carousel_captions,
                pending := perase (gid', oid') s.pending,
                published := s.published ++
                  [(gid', (alookup oid' s.store).getD [])] } := by
            simp [stepEvent, carousel_complete, hmem, h1]
          rw [hstep]
          refine ⟨?_, ⟨its, hst, le_refl _⟩, ?_, hfresh, hpend1, hcount⟩
          · rw [alookup_aerase_ne gid gid' hne']
            exact hg
          · rw [alookup_aerase_ne gid gid' hne']
            exact hc
      · have hstep : stepEvent s (AggEvent.complete gid' oid') = s := by
          simp [stepEvent, carousel_complete, hmem]
        rw [hstep]
        exact ⟨hg, ⟨its, hst, le_refl _⟩, hc, hfresh, hpend, rfl⟩

/-- Induction over the remaining event stream for the stuck-group fact. -/
theorem runEvents_oversized_aux (gid cap : String) (es : List AggEvent) :
    ∀ (s : ProcState) (oid : ℕ) (its : List ℕ),
    alookup gid s.carousel_groups = some oid →
    alookup oid s.store = some its →
    alookup gid s.carousel_captions = some cap →
    MAX_CAROUSEL_ITEMS < its.length →
    oid < s.next_id →
    (∀ p ∈ s.pending, p.1 ≠ gid) →
    alookup gid (runEvents s es).carousel_groups = some oid ∧
    (∃ its1, alookup oid (runEvents s es).store = some its1 ∧
      its.length ≤ its1.length) ∧
    alookup gid (runEvents s es).carousel_captions = some cap ∧
    (∀ p ∈ (runEvents s es).pending, p.1 ≠ gid) ∧
    (runEvents s es).published.countP (fun p => p.1 = gid) =
      s.published.countP (fun p => p.1 = gid) := by
  induction es with
  | nil =>
    intro s oid its hg hst hc hover hfresh hpend
    exact ⟨hg, ⟨its, hst, le_refl _⟩, hc, hpend, rfl⟩
  | cons e rest ih =>
    intro s oid its hg hst hc hover hfresh hpend
    obtain ⟨h1, ⟨its1, h2, hlen⟩, h3, h4, h5, h6⟩ :=
      step_preserves_oversized gid cap oid its s e hg hst hc hover hfresh hpend
    have hover1 : MAX_CAROUSEL_ITEMS < its1.length := lt_of_lt_of_le hover hlen
    obtain ⟨hg2, ⟨its2, hst2, hlen2⟩, hc2, hpend2, hp2⟩ :=
      ih (stepEvent s e) oid its1 h1 h2 h3 hover1 h4 h5
    have hrun : runEvents s (e :: rest) = runEvents (stepEvent s e) rest := by
      simp [runEvents]
    rw [hrun]
    exact ⟨hg2, ⟨its2, hst2, le_trans hlen hlen2⟩, hc2, hpend2,
      by rw [hp2, h6]⟩

/-- C9 (amended): an expiry that finds the group holding strictly more
than `MAX_CAROUSEL_ITEMS` items skips the publish step; and when no
publish of the group is in flight at that moment, the group is indeed
never published — whatever events follow, no publish of that group id is
recorded, its entries survive in `carousel_groups` and
`carousel_captions`, and its item list only grows.  (The no-in-flight
proviso is necessary: a publish entered while the count was still within
the limit completes regardless — see the counterexample.) -/
theorem carousel_oversized_stuck_without_inflight (gid cap : String)
    (oid : ℕ) (its : List ℕ) (s : ProcState) (es : List AggEvent)
    (hg : alookup gid s.carousel_groups = some oid)
    (hst : alookup oid s.store = some its)
    (hc : alookup gid s.carousel_captions = some cap)
    (hover : MAX_CAROUSEL_ITEMS < its.length)
    (hfresh : oid < s.next_id)
    (hpend : ∀ p ∈ s.pending, p.1 ≠ gid) :
    alookup gid (runEvents s es).carousel_groups = some oid ∧
    (∃ its1, alookup oid (runEvents s es).store = some its1 ∧
      its.length ≤ its1.length) ∧
    alookup gid (runEvents s es).carousel_captions = some cap ∧
    (runEvents s es).published.countP (fun p => p.1 = gid) =
      s.published.countP (fun p => p.1 = gid) := by
  obtain ⟨h1, h2, h3, _, h5⟩ :=
    runEvents_oversized_aux gid cap es s oid its hg hst hc hover hfresh hpend
  exact ⟨h1, h2, h3, h5⟩

theorem carousel_oversized_stuck_without_inflight_witness :
    alookup "g2" (runEvents
        ⟨1, [(0, [0, 1, 2, 3, 4, 5, 6, 7, 8, 9, 10])], [("g2", 0)],
          [("g2", "c")], [], []⟩
        [AggEvent.fire "g2", AggEvent.arrive "g2" "c" 11,
         AggEvent.complete "g2" 0, AggEvent.fire "g2"]).carousel_groups =
      some 0 ∧
    (∃ its1, alookup 0 (runEvents
        ⟨1, [(0, [0, 1, 2, 3, 4, 5, 6, 7, 8, 9, 10])], [("g2", 0)],
          [("g2", "c")], [], []⟩
        [AggEvent.fire "g2", AggEvent.arrive "g2" "c" 11,
         AggEvent.complete "g2" 0, AggEvent.fire "g2"]).store = some its1 ∧
      ([0, 1, 2, 3, 4, 5, 6, 7, 8, 9, 10] : List ℕ).length ≤ its1.length) ∧
    alookup "g2" (runEvents
        ⟨1, [(0, [0, 1, 2, 3, 4, 5, 6, 7, 8, 9, 10])], [("g2", 0)],
          [("g2", "c")], [], []⟩
        [AggEvent.fire "g2", AggEvent.arrive "g2" "c" 11,
         AggEvent.complete "g2" 0, AggEvent.fire "g2"]).carousel_captions =
      some "c" ∧
    (runEvents
        ⟨1, [(0, [0, 1, 2, 3, 4, 5, 6, 7, 8, 9, 10])], [("g2", 0)],
          [("g2", "c")], [], []⟩
        [AggEvent.fire "g2", AggEvent.arrive "g2" "c" 11,
         AggEvent.complete "g2" 0, AggEvent.fire "g2"]).published.countP
      (fun p => p.1 = "g2") =
      ([] : List (String × List ℕ)).countP (fun p => p.1 = "g2") := by
  have h := carousel_oversized_stuck_without_inflight "g2" "c" 0
    [0, 1, 2, 3, 4, 5, 6, 7, 8, 9, 10]
    ⟨1, [(0, [0, 1, 2, 3, 4, 5, 6, 7, 8, 9, 10])], [("g2", 0)],
      [("g2", "c")], [], []⟩
    [AggEvent.fire "g2", AggEvent.arrive "g2" "c" 11,
     AggEvent.complete "g2" 0, AggEvent.fire "g2"]
    rfl rfl rfl (by simp [MAX_CAROUSEL_ITEMS]) (by simp) (by simp)
  simpa using h

/-! ### SRT time formatting facts -/

theorem fmod_nonneg_lt (a b : ℚ) (hb : 0 < b) : 0 ≤ fmod a b ∧ fmod a b < b := by
  have hbne : b ≠ 0 := ne_of_gt hb
  have h : fmod a b = b * Int.fract (a / b) := by
    unfold fmod Int.fract
    field_simp
  constructor
  · rw [h]
    exact mul_nonneg (le_of_lt hb) (Int.fract_nonneg _)
  · rw [h]
    calc b * Int.fract (a / b) < b * 1 :=
          (mul_lt_mul_left hb).mpr (Int.fract_lt_one _)
    _ = b := mul_one b

/-- The printed components of `_format_srt_time` are in range for
non-negative inputs, and the output is the zero-padded
`HH:MM:SS,mmm` assembly of those components. -/
theorem srt_time_shape (q : ℚ) (h : 0 ≤ q) :
    srtMinutes q < 60 ∧ srtSecs q < 60 ∧ srtMillis q < 1000 ∧
    format_srt_time q =
      padNat 2 (srtHours q).toNat ++ ":" ++ padNat 2 (srtMinutes q) ++ ":" ++
        padNat 2 (srtSecs q) ++ "," ++ padNat 3 (srtMillis q) := by
  have h3600 := fmod_nonneg_lt q 3600 (by norm_num)
  have h60 := fmod_nonneg_lt q 60 (by norm_num)
  have h1 := fmod_nonneg_lt q 1 (by norm_num)
  refine ⟨?_, ?_, ?_, ?_⟩
  · have hlt : ⌊fmod q 3600 / 60⌋ < 60 := by
      rw [Int.floor_lt]
      push_cast
      nlinarith [h3600.2]
    unfold srtMinutes
    omega
  · have hlt : ⌊fmod q 60⌋ < 60 := by
      rw [Int.floor_lt]
      push_cast
      nlinarith [h60.2]
    unfold srtSecs
    omega
  · have hlt : ⌊fmod q 1 * 1000⌋ < 1000 := by
      rw [Int.floor_lt]
      push_cast
      nlinarith [h1.2]
    unfold srtMillis
    omega
  · have hh : 0 ≤ srtHours q := by
      unfold srtHours
      rw [Int.floor_nonneg]
      positivity
    unfold format_srt_time padInt
    rw [if_neg (by omega)]

/-- Text of every emitted cue is the uppercased join of its word chunk. -/
theorem emitChunks_text (st en tps cur : ℚ) (ws : List String) (idx : ℕ) :
    ∀ c ∈ emitChunks st en tps cur ws idx,
      ∃ chunk : List String, c.text = upperStr (String.intercalate " " chunk) := by
  induction cur, ws, idx using emitChunks.induct st en tps with
  | case1 cur idx => intro c hc; simp [emitChunks] at hc
  | case2 cur w idx =>
    intro c hc
    simp only [emitChunks, List.mem_singleton] at hc
    subst hc
    exact ⟨[w], rfl⟩
  | case3 cur w w2 rest idx hlen ce ih =>
    intro c hc
    rw [emitChunks, if_pos hlen] at hc
    rcases List.mem_cons.mp hc with hc | hc
    · subst hc; exact ⟨[w], rfl⟩
    · exact ih c hc
  | case4 cur w w2 rest idx hlen ce ih =>
    intro c hc
    rw [emitChunks, if_neg hlen] at hc
    rcases List.mem_cons.mp hc with hc | hc
    · subst hc; exact ⟨[w, w2], rfl⟩
    · exact ih c hc

theorem processSegments_text (segs : List Segment) :
    ∀ idx, ∀ c ∈ processSegments segs idx,
      ∃ chunk : List String, c.text = upperStr (String.intercalate " " chunk) := by
  induction segs with
  | nil => intro idx c hc; simp [processSegments] at hc
  | cons seg rest ih =>
    intro idx c hc
    rw [processSegments] at hc
    by_cases hw : segmentWords seg = []
    · rw [if_pos hw] at hc
      exact ih idx c hc
    · rw [if_neg hw] at hc
      rcases List.mem_append.mp hc with hc | hc
      · exact emitChunks_text _ _ _ _ _ _ c hc
      · exact ih _ c hc

theorem flatMap_cueLines_length (cues : List Cue) :
    (cues.flatMap cueLines).length = 4 * cues.length := by
  induction cues with
  | nil => simp
  | cons c rest ih =>
    simp only [List.flatMap_cons, List.length_append, ih, List.length_cons]
    simp [cueLines]
    ring

/-- C7: the plain emission is the newline-join of one 4-line block per
cue — index line, `start --> end` timestamp line (both times zero-padded
`HH:MM:SS,mmm` with in-range minute, second and millisecond fields for
non-negative times), the uppercased cue text, and a blank separator. -/
theorem srt_plain_format_blocks :
    (∀ segments : List Segment, create_smooth_bookoly_srt segments =
      String.intercalate "\n" ((processSegments segments 1).flatMap cueLines)) ∧
    (∀ cues : List Cue, (cues.flatMap cueLines).length = 4 * cues.length) ∧
    (∀ c : Cue, cueLines c =
      [Nat.repr c.index,
       format_srt_time c.start ++ " --> " ++ format_srt_time c.endTime,
       c.text, ""]) ∧
    (∀ (segments : List Segment) (idx : ℕ), ∀ c ∈ processSegments segments idx,
      ∃ chunk : List String, c.text = upperStr (String.intercalate " " chunk)) ∧
    (∀ q : ℚ, 0 ≤ q →
      srtMinutes q < 60 ∧ srtSecs q < 60 ∧ srtMillis q < 1000 ∧
      format_srt_time q =
        padNat 2 (srtHours q).toNat ++ ":" ++ padNat 2 (srtMinutes q) ++ ":" ++
          padNat 2 (srtSecs q) ++ "," ++ padNat 3 (srtMillis q)) :=
  ⟨fun _ => rfl, flatMap_cueLines_length, fun _ => rfl,
    fun segs idx => processSegments_text segs idx, srt_time_shape⟩

theorem srt_plain_format_blocks_witness :
    (0 ≤ (3723 + 1/2 : ℚ)) ∧
    (srtMinutes (3723 + 1/2) < 60 ∧ srtSecs (3723 + 1/2) < 60 ∧
      srtMillis (3723 + 1/2) < 1000 ∧
      format_srt_time (3723 + 1/2) =
        padNat 2 (srtHours (3723 + 1/2)).toNat ++ ":" ++
          padNat 2 (srtMinutes (3723 + 1/2)) ++ ":" ++
          padNat 2 (srtSecs (3723 + 1/2)) ++ "," ++
          padNat 3 (srtMillis (3723 + 1/2))) :=
  ⟨by norm_num, srt_plain_format_blocks.2.2.2.2 (3723 + 1/2) (by norm_num)⟩

/-! ### Empty-transcript behaviour -/

theorem processSegments_all_empty (segs : List Segment) :
    ∀ idx, (∀ seg ∈ segs, segmentWords seg = []) →
    processSegments segs idx = [] := by
  induction segs with
  | nil => intro idx _; rfl
  | cons seg rest ih =>
    intro idx h
    rw [processSegments, if_pos (h seg (List.mem_cons_self _ _))]
    exact ih idx fun s hs => h s (List.mem_cons_of_mem _ hs)

/-- C8 (counterexample): an empty transcript — and likewise a transcript
whose only segment has no words — does not raise any error: cue synthesis
returns normally with the empty subtitle document. -/
theorem empty_transcript_no_error_counterexample :
    create_smooth_bookoly_srt [] = "" ∧
      create_smooth_bookoly_srt [⟨0, 1, "   "⟩] = "" :=
  ⟨rfl, rfl⟩

/-- C8 (amended): when the transcript is empty, or every segment's text
splits into zero words, `_create_smooth_bookoly_srt` succeeds and returns
the empty subtitle document (no `ValidationError` exists in the code). -/
theorem empty_transcript_returns_empty (segments : List Segment)
    (h : ∀ seg ∈ segments, segmentWords seg = []) :
    create_smooth_bookoly_srt segments = "" := by
  unfold create_smooth_bookoly_srt
  rw [processSegments_all_empty segments 1 h]
  rfl

theorem empty_transcript_returns_empty_witness :
    (∀ seg ∈ [(⟨0, 1, "   "⟩ : Segment)], segmentWords seg = []) ∧
    create_smooth_bookoly_srt [(⟨0, 1, "   "⟩ : Segment)] = "" := by
  have h : ∀ seg ∈ [(⟨0, 1, "   "⟩ : Segment)], segmentWords seg = [] := by
    intro seg hs
    simp only [List.mem_singleton] at hs
    subst hs
    rfl
  exact ⟨h, empty_transcript_returns_empty _ h⟩

/-- C10: the subtitle style burned into videos is the fixed literal of
`add_subtitles_to_video`; two runs on the same video and SRT that differ
only in the configured `SUBTITLE_*` values construct the identical ffmpeg
command, so the configuration has no effect on the output. -/
theorem ffmpeg_cmd_ignores_subtitle_config :
    (∀ (cfg1 cfg2 : SubtitleConfig) (video_path srt_path output_path : String),
      ffmpeg_subtitle_cmd cfg1 video_path srt_path output_path =
        ffmpeg_subtitle_cmd cfg2 video_path srt_path output_path) ∧
    subtitle_style =
      "FontName=Arial Black,FontSize=14,Bold=1,PrimaryColour=&H0000FFFF," ++
      "OutlineColour=&H00000000,BorderStyle=1,Outline=1,Shadow=0," ++
      "Alignment=2,MarginV=60" :=
  ⟨fun _ _ _ _ _ => rfl, rfl⟩

/-! ### Frame-extraction timestamps -/

/-- C6 (counterexample): for a 5-second video and 2 frames the source
clamps the window start to `max(1.0, 0.1 * 5) = 1.0`, so the first
timestamp is `1`, not `0.1 * 5 = 0.5`. -/
theorem frame_timestamps_counterexample :
    frame_timestamps 5 2 = [1, 4] ∧ ¬ ((1 : ℚ) = 5 * (1/10)) := by
  constructor
  · unfold frame_timestamps
    norm_num [List.range_succ, max_def, min_def]
  · norm_num

/-- C6 (amended): one frame is always taken at the midpoint of the
duration; for `frame_count ≥ 2` the claimed 10%–90% window holds once the
duration is at least 10 seconds (below that the source clamps the window
to `[1, duration - 1]`): the timestamps are then evenly spaced, the first
is `0.1 * duration`, the last is `0.9 * duration`, and all lie inside the
middle 80% of the duration. -/
theorem frame_timestamps_spec (d : ℚ) (n : ℕ) :
    frame_timestamps d 1 = [d / 2] ∧
    (2 ≤ n → 10 ≤ d →
      frame_timestamps d n = (List.range n).map
        (fun i : ℕ => d * (1/10) +
          (i : ℚ) * ((d * (9/10) - d * (1/10)) / ((n : ℚ) - 1))) ∧
      (frame_timestamps d n)[0]? = some (d * (1/10)) ∧
      (frame_timestamps d n)[n-1]? = some (d * (9/10)) ∧
      (∀ t ∈ frame_timestamps d n, d * (1/10) ≤ t ∧ t ≤ d * (9/10))) := by
  constructor
  · simp [frame_timestamps]
  · intro hn hd
    have hne : ¬ (n = 1) := by omega
    have hstart : max 1 (d * (1/10)) = d * (1/10) :=
      max_eq_right (by linarith)
    have hstop : min (d - 1) (d * (9/10)) = d * (9/10) :=
      min_eq_right (by linarith)
    have hcond : ¬ (d * (9/10) ≤ d * (1/10)) := by
      intro hcontra
      nlinarith
    have hngt : 1 < n := by omega
    have hform : frame_timestamps d n = (List.range n).map
        (fun i : ℕ => d * (1/10) +
          (i : ℚ) * ((d * (9/10) - d * (1/10)) / ((n : ℚ) - 1))) := by
      unfold frame_timestamps
      rw [if_neg hne]
      simp only [hstart, hstop, if_neg hcond, if_pos hngt]
    have hcast : ((n : ℚ) - 1) ≠ 0 := by
      have : (2 : ℚ) ≤ (n : ℚ) := by exact_mod_cast hn
      linarith
    have hinterval : 0 ≤ (d * (9/10) - d * (1/10)) / ((n : ℚ) - 1) := by
      apply div_nonneg
      · nlinarith
      · have : (2 : ℚ) ≤ (n : ℚ) := by exact_mod_cast hn
        linarith
    refine ⟨hform, ?_, ?_, ?_⟩
    · rw [hform, List.getElem?_map, List.getElem?_range (by omega)]
      simp
    · rw [hform, List.getElem?_map, List.getElem?_range (by omega)]
      simp only [Option.map_some']
      congr 1
      have hc : ((n - 1 : ℕ) : ℚ) = (n : ℚ) - 1 := by
        push_cast [Nat.cast_sub (by omega : 1 ≤ n)]
        ring
      rw [hc]
      have hdiv : ((n : ℚ) - 1) * ((d * (9/10) - d * (1/10)) / ((n : ℚ) - 1)) =
          d * (9/10) - d * (1/10) := by
        rw [mul_comm]
        exact div_mul_cancel₀ _ hcast
      rw [hdiv]
      ring
    · intro t ht
      rw [hform] at ht
      obtain ⟨i, hi, rfl⟩ := List.mem_map.mp ht
      have hin : i < n := List.mem_range.mp hi
      constructor
      · have : 0 ≤ (i : ℚ) * ((d * (9/10) - d * (1/10)) / ((n : ℚ) - 1)) :=
          mul_nonneg (by positivity) hinterval
        linarith
      · have hile : (i : ℚ) ≤ (n : ℚ) - 1 := by
          have : (i : ℚ) + 1 ≤ (n : ℚ) := by exact_mod_cast hin
          linarith
        have hmul : (i : ℚ) * ((d * (9/10) - d * (1/10)) / ((n : ℚ) - 1)) ≤
            ((n : ℚ) - 1) * ((d * (9/10) - d * (1/10)) / ((n : ℚ) - 1)) :=
          mul_le_mul_of_nonneg_right hile hinterval
        have hdiv : ((n : ℚ) - 1) * ((d * (9/10) - d * (1/10)) / ((n : ℚ) - 1)) =
            d * (9/10) - d * (1/10) := by
          rw [mul_comm]
          exact div_mul_cancel₀ _ hcast
        rw [hdiv] at hmul
        linarith

theorem frame_timestamps_spec_witness :
    (frame_timestamps 20 1 = [10]) ∧
    ((2 : ℕ) ≤ 3 ∧ (10 : ℚ) ≤ 20) ∧
    (frame_timestamps 20 3 = (List.range 3).map
        (fun i : ℕ => 20 * (1/10) +
          (i : ℚ) * ((20 * (9/10) - 20 * (1/10)) / ((3 : ℚ) - 1))) ∧
      (frame_timestamps 20 3)[0]? = some (20 * (1/10)) ∧
      (frame_timestamps 20 3)[3-1]? = some (20 * (9/10)) ∧
      (∀ t ∈ frame_timestamps 20 3, 20 * (1/10) ≤ t ∧ t ≤ 20 * (9/10))) := by
  have h := frame_timestamps_spec 20 3
  refine ⟨by rw [h.1]; norm_num, ⟨by norm_num, by norm_num⟩,
    h.2 (by norm_num) (by norm_num)⟩
